import Mathlib

/-!
Shallow embedding of the paperbark word-game engine (`src/game.rs`) and proofs
about its data model: coordinates, the board, regions, the ruleset and the
`Game` orchestrator with its validation pipeline.

Rust `usize` values are modelled as `Nat` (all arithmetic here is far from
overflow: only comparisons, differences via `max - min`, and `y*width+x`
indexing on boards the program constructs).  Panicking operations (`%` by
zero, slice indexing) are modelled with `Option`.  The `HashSet<Square>`
backing a `Region` is modelled as a `Finset Square`; the iteration order of a
`HashSet` is arbitrary, so every place the source reads "an arbitrary
element" is modelled by a deterministic choice (first in reading order) and
the choice-independence is proved separately.
-/

set_option maxHeartbeats 1000000

/-- `struct Square`: a board coordinate, column `x` and row `y`. -/
structure Square where
  x : Nat
  y : Nat
deriving DecidableEq

/-- `Square::is_neighbour_of`: 4-directional adjacency, written exactly as the
source computes it (`delta = max - min` on each axis). -/
def Square.is_neighbour_of (self other : Square) : Bool :=
  let delta : Nat → Nat → Nat := fun a b => max a b - min a b
  let is_horizontal := self.y == other.y
  let dx := delta self.x other.x
  let is_vertical := self.x == other.x
  let dy := delta self.y other.y
  (is_horizontal && dx == 1) || (is_vertical && dy == 1)

/-- Reading order on squares: top-to-bottom (`y` first), left-to-right
(`x` second) — the comparator of `Region::word`. -/
def Square.readLE (a b : Square) : Prop :=
  a.y < b.y ∨ (a.y = b.y ∧ a.x ≤ b.x)

instance : DecidableRel Square.readLE := fun a b =>
  inferInstanceAs (Decidable (a.y < b.y ∨ (a.y = b.y ∧ a.x ≤ b.x)))

instance : IsTrans Square Square.readLE :=
  ⟨by intro a b c hab hbc; unfold Square.readLE at *; omega⟩

instance : IsAntisymm Square Square.readLE := by
  refine ⟨fun a b h1 h2 => ?_⟩
  cases a; cases b
  simp only [Square.readLE] at h1 h2
  simp only [Square.mk.injEq]
  omega

instance : IsTotal Square Square.readLE :=
  ⟨by intro a b; unfold Square.readLE; omega⟩

/-- `struct Board`: a `width × height` grid stored as a flat character list,
row-major. -/
structure Board where
  width : Nat
  height : Nat
  board : List Char
deriving DecidableEq

/-- `Board::new`: `assert_eq!(board.len() % width, 0)`.  With `width = 0` the
remainder-by-zero panics (even for empty contents), so construction fails;
otherwise it fails exactly when the length is not a multiple of `width`, and
on success `height = len / width`. -/
def Board.new (width : Nat) (board : List Char) : Option Board :=
  if width = 0 then none
  else if board.length % width = 0 then
    some { width := width, height := board.length / width, board := board }
  else none

/-- `Board::get`: `self.board[s.y * self.width + s.x]` — panics (modelled as
`none`) when the linear index is out of range of the backing list. -/
def Board.get (b : Board) (s : Square) : Option Char :=
  b.board[s.y * b.width + s.x]?

/-- `struct Region(HashSet<Square>)`: a finite set of squares. -/
abbrev Region := Finset Square

/-- The squares of a multiset arranged in reading order (a kernel-computable
stand-in for `Finset.sort`, which the committed `mergeSort` blocks). -/
def sortSquaresM (m : Multiset Square) : List Square :=
  Quot.liftOn m (fun l => l.insertionSort Square.readLE)
    (fun l1 l2 (h : List.Perm l1 l2) =>
      List.eq_of_perm_of_sorted
        (((l1.perm_insertionSort Square.readLE).trans h).trans
          (l2.perm_insertionSort Square.readLE).symm)
        (List.sorted_insertionSort Square.readLE l1)
        (List.sorted_insertionSort Square.readLE l2))

/-- The squares of a region listed in reading order. -/
def sortedSquares (r : Region) : List Square :=
  sortSquaresM r.val

/-- Read the board character at each square of a list in order; `none` as soon
as any lookup panics (the `map(get).collect()` of `Region::word`). -/
def Board.getWord (b : Board) : List Square → Option (List Char)
  | [] => some []
  | s :: rest =>
    match b.get s, Board.getWord b rest with
    | some c, some cs => some (c :: cs)
    | _, _ => none

/-- `Region::word`: sort the squares top-to-bottom then left-to-right and
concatenate the board character at each. -/
def Region.word (r : Region) (b : Board) : Option (List Char) :=
  Board.getWord b (sortedSquares r)

/-- `Region::is_in_bounds`: no square has `x ≥ width` or `y ≥ height`. -/
def Region.is_in_bounds (r : Region) (b : Board) : Bool :=
  !(decide (∃ s ∈ r, b.width ≤ s.x ∨ b.height ≤ s.y))

/-- The body of the `find` in `Region::is_contiguous`: some square of
`remaining` adjacent to at least one square of `so_far`, if one exists.  The
source takes whichever the `HashSet` iterator yields first; this model takes
the first in reading order (choice-independence is proved below). -/
def pickAdjacent (so_far remaining : Finset Square) : Option Square :=
  (sortSquaresM remaining.val).find?
    (fun s1 => decide (∃ s2 ∈ so_far, Square.is_neighbour_of s1 s2))

/-- The `while !remaining.is_empty()` loop of `Region::is_contiguous`,
parametrised by the choice of which adjacent square to absorb next; `fuel`
bounds the number of iterations (each iteration shrinks `remaining`). -/
def frontierLoop (pick : Finset Square → Finset Square → Option Square) :
    Nat → Finset Square → Finset Square → Bool
  | 0, _, remaining => decide (remaining = ∅)
  | fuel + 1, so_far, remaining =>
    if remaining = ∅ then true
    else
      match pick so_far remaining with
      | some s => frontierLoop pick fuel (insert s so_far) (remaining.erase s)
      | none => false

/-- `Region::is_contiguous`: empty regions are contiguous; otherwise grow a
frontier from one member and check that it absorbs every square. -/
def Region.is_contiguous (r : Region) : Bool :=
  match (sortedSquares r).head? with
  | none => true
  | some start => frontierLoop pickAdjacent r.card {start} (r.erase start)

/-- `Region::is_contiguous` with an explicitly chosen starting square and
choice function, used to state that the source's arbitrary choices do not
affect the result. -/
def is_contiguousFrom (pick : Finset Square → Finset Square → Option Square)
    (start : Square) (r : Region) : Bool :=
  frontierLoop pick r.card {start} (r.erase start)

/-- A choice function is valid for the frontier loop when it returns a
remaining square adjacent to the frontier whenever one exists, and `none`
only when none exists (any `HashSet` iteration order induces one). -/
def ValidPick (pick : Finset Square → Finset Square → Option Square) : Prop :=
  ∀ so_far remaining : Finset Square,
    (∀ s, pick so_far remaining = some s →
      s ∈ remaining ∧ ∃ t ∈ so_far, Square.is_neighbour_of s t = true) ∧
    (pick so_far remaining = none →
      ∀ s ∈ remaining, ∀ t ∈ so_far, Square.is_neighbour_of s t = false)

/-- One edge of the adjacency graph induced on the square set `u`. -/
def connStep (u : Finset Square) (a b : Square) : Prop :=
  b ∈ u ∧ Square.is_neighbour_of a b = true

/-- `b` is reachable from `a` through 4-directional steps inside `u`. -/
def Conn (u : Finset Square) (a b : Square) : Prop :=
  Relation.ReflTransGen (connStep u) a b

/-- The adjacency graph induced on the region is connected. -/
def RegionConnected (r : Region) : Prop :=
  ∀ a ∈ r, ∀ b ∈ r, Conn r a b

/-- `struct Ruleset`. -/
structure Ruleset where
  min_length : Nat
  max_length : Nat
  dictionary : Finset (List Char)

/-- `enum CheckRegionError`: the six validation failure tags. -/
inductive CheckRegionError where
  | TooShort
  | TooLong
  | OutOfBounds
  | Overlapping
  | NotContiguous
  | NotInDictionary
deriving DecidableEq

instance {ε α : Type} [DecidableEq ε] [DecidableEq α] : DecidableEq (Except ε α)
  | .error e1, .error e2 =>
    if h : e1 = e2 then isTrue (congrArg Except.error h)
    else isFalse (fun he => h (Except.error.inj he))
  | .error _, .ok _ => isFalse (fun he => Except.noConfusion he)
  | .ok _, .error _ => isFalse (fun he => Except.noConfusion he)
  | .ok a1, .ok a2 =>
    if h : a1 = a2 then isTrue (congrArg Except.ok h)
    else isFalse (fun he => h (Except.ok.inj he))

/-- `struct Game`: a board, a ruleset and the committed `(Region, D)` list
(`D` is the caller's opaque label type). -/
structure Game (D : Type) where
  board : Board
  ruleset : Ruleset
  regions : List (Region × D)

/-- `Game::new`. -/
def Game.new {D : Type} (board : Board) (ruleset : Ruleset) : Game D :=
  { board := board, ruleset := ruleset, regions := [] }

/-- `Game::check_region`: the six checks in source order, first failure wins.
On success the source returns `CheckedRegion(region)`, a handle to the same
candidate; modelled by returning the region itself.  The `none` branch of the
dictionary lookup is unreachable: the bounds check has already passed, so
every board read succeeds. -/
def Game.check_region {D : Type} (g : Game D) (r : Region) :
    Except CheckRegionError Region :=
  if r.card < g.ruleset.min_length then .error .TooShort
  else if g.ruleset.max_length < r.card then .error .TooLong
  else if !(Region.is_in_bounds r g.board) then .error .OutOfBounds
  else if g.regions.any (fun rd =>
      (sortSquaresM rd.1.val).any (fun square => decide (square ∈ r))) then
    .error .Overlapping
  else if !(Region.is_contiguous r) then .error .NotContiguous
  else
    match Region.word r g.board with
    | some w => if w ∈ g.ruleset.dictionary then .ok r else .error .NotInDictionary
    | none => .error .NotInDictionary

/-- `Game::add_region`: push a copy of the validated region with its label. -/
def Game.add_region {D : Type} (g : Game D) (r : Region) (data : D) : Game D :=
  { g with regions := g.regions ++ [(r, data)] }

/-- `Iterator::position`: index of the first element satisfying the
predicate. -/
def listPosition {α : Type} (p : α → Bool) : List α → Option Nat
  | [] => none
  | x :: xs => if p x then some 0 else (listPosition p xs).map (· + 1)

/-- `Vec::swap_remove(i)`: overwrite index `i` with the last element and pop
(constant-time removal that may reorder the remainder). -/
def listSwapRemove {α : Type} (l : List α) (i : Nat) : List α :=
  match l.getLast? with
  | none => []
  | some last => (l.set i last).dropLast

/-- `Game::remove_region`: find the first committed region containing the
square, `swap_remove` it and return it; `(none, g)` when no region contains
the square. -/
def Game.remove_region {D : Type} (g : Game D) (square : Square) :
    Option (Region × D) × Game D :=
  match listPosition (fun rd => decide (square ∈ rd.1)) g.regions with
  | some i => (g.regions[i]?, { g with regions := listSwapRemove g.regions i })
  | none => (none, g)

/-- `Game::is_square_free`: no committed region contains the square. -/
def Game.is_square_free {D : Type} (g : Game D) (square : Square) : Bool :=
  !(g.regions.any (fun rd =>
    (sortSquaresM rd.1.val).any (fun other => square == other)))

/-- The `iproduct!(0..width, 0..height)` set of `Game::is_complete`: every
coordinate of the board. -/
def allSquares (b : Board) : Finset Square :=
  (Finset.range b.width ×ˢ Finset.range b.height).image (fun p => ⟨p.1, p.2⟩)

/-- The union of the committed regions (the `used_squares` fold of
`Game::is_complete`). -/
def usedSquares {D : Type} (g : Game D) : Finset Square :=
  g.regions.foldl (fun used rd => used ∪ rd.1) ∅

/-- `Game::is_complete`: the difference between every board coordinate and
the committed coordinates is empty. -/
def Game.is_complete {D : Type} (g : Game D) : Bool :=
  decide ((allSquares g.board \ usedSquares g).card = 0)

/-- The games reachable through the public API: start from `Game::new`, add
only regions validated by `check_region` against the current state, remove
freely.  (In the source this is enforced by the `CheckedRegion` handle, which
borrows the candidate until `add_region` consumes it.) -/
inductive Reachable {D : Type} : Game D → Prop where
  | new (board : Board) (ruleset : Ruleset) : Reachable (Game.new board ruleset)
  | add {g : Game D} {r : Region} (d : D) : Reachable g →
      Game.check_region g r = .ok r → Reachable (Game.add_region g r d)
  | remove {g : Game D} (square : Square) : Reachable g →
      Reachable (Game.remove_region g square).2

/-- The 3×3 test board of the source (`"ABC" "DEF" "GHI"`, width 3). -/
def board3 : Board :=
  { width := 3, height := 3, board := "ABCDEFGHI".toList }

/-- A small ruleset for concrete instantiations: sizes 2..9, dictionary
`{"AD"}` (the end-to-end scenario of the spec). -/
def ruleset1 : Ruleset :=
  { min_length := 2, max_length := 9, dictionary := {"AD".toList} }

/-- The committed region of the end-to-end scenario: `{(0,0),(0,1)}`,
spelling "AD". -/
def regionAD : Region := {⟨0, 0⟩, ⟨0, 1⟩}

/-- The game after committing `regionAD` with label `0`. -/
def game1 : Game Nat :=
  Game.add_region (Game.new board3 ruleset1) regionAD 0

/-- A 1×2 board spelling "AD" top to bottom. -/
def boardAD : Board :=
  { width := 1, height := 2, board := "AD".toList }

/-- A completed game: `regionAD` covers the whole 1×2 board. -/
def game2 : Game Nat :=
  Game.add_region (Game.new boardAD ruleset1) regionAD 0

/-!
Lemma layer: characterisations of the definitions above, followed by the
claim theorems.
-/

lemma is_neighbour_of_iff (a b : Square) :
    a.is_neighbour_of b = true ↔
      ((a.y = b.y ∧ max a.x b.x - min a.x b.x = 1) ∨
       (a.x = b.x ∧ max a.y b.y - min a.y b.y = 1)) := by
  simp [Square.is_neighbour_of]

lemma is_neighbour_of_symm (a b : Square) :
    a.is_neighbour_of b = b.is_neighbour_of a := by
  cases hab : a.is_neighbour_of b <;> cases hba : b.is_neighbour_of a <;> try rfl
  · rw [is_neighbour_of_iff] at hba
    have hna := (is_neighbour_of_iff a b).not.mp (by simp [hab])
    exact absurd (by omega : (a.y = b.y ∧ max a.x b.x - min a.x b.x = 1) ∨
      (a.x = b.x ∧ max a.y b.y - min a.y b.y = 1)) hna
  · rw [is_neighbour_of_iff] at hab
    have hnb := (is_neighbour_of_iff b a).not.mp (by simp [hba])
    exact absurd (by omega : (b.y = a.y ∧ max b.x a.x - min b.x a.x = 1) ∨
      (b.x = a.x ∧ max b.y a.y - min b.y a.y = 1)) hnb

lemma sortSquaresM_coe (m : Multiset Square) :
    (↑(sortSquaresM m) : Multiset Square) = m := by
  induction m using Quot.inductionOn with
  | _ l => exact Multiset.coe_eq_coe.mpr (l.perm_insertionSort Square.readLE)

lemma sortSquaresM_sorted (m : Multiset Square) :
    (sortSquaresM m).Sorted Square.readLE := by
  induction m using Quot.inductionOn with
  | _ l => exact List.sorted_insertionSort Square.readLE l

lemma sortedSquares_sorted (r : Region) : (sortedSquares r).Sorted Square.readLE :=
  sortSquaresM_sorted r.val

lemma mem_sortSquaresM (m : Multiset Square) (s : Square) :
    s ∈ sortSquaresM m ↔ s ∈ m := by
  rw [← Multiset.mem_coe, sortSquaresM_coe]

lemma mem_sortedSquares (r : Region) (s : Square) : s ∈ sortedSquares r ↔ s ∈ r := by
  rw [sortedSquares, mem_sortSquaresM, Finset.mem_def]

lemma sortedSquares_nodup (r : Region) : (sortedSquares r).Nodup := by
  have h : (↑(sortedSquares r) : Multiset Square).Nodup := by
    rw [sortedSquares, sortSquaresM_coe]; exact r.nodup
  exact Multiset.coe_nodup.mp h

lemma sortedSquares_eq_nil_iff (r : Region) : sortedSquares r = [] ↔ r = ∅ := by
  constructor
  · intro h
    ext s
    rw [← mem_sortedSquares, h]
    simp
  · intro h
    subst h
    rfl

lemma is_in_bounds_iff (r : Region) (b : Board) :
    Region.is_in_bounds r b = true ↔ ∀ s ∈ r, s.x < b.width ∧ s.y < b.height := by
  simp only [Region.is_in_bounds, Bool.not_eq_true', decide_eq_false_iff_not, not_exists]
  constructor
  · intro h s hs
    have := h s
    simp only [hs, true_and] at this
    omega
  · intro h s
    by_cases hs : s ∈ r
    · have := h s hs
      simp only [hs, true_and]
      omega
    · simp [hs]

lemma getWord_eq_some (b : Board) :
    ∀ (l : List Square), (∀ s ∈ l, ∃ c, Board.get b s = some c) →
      ∃ cs, Board.getWord b l = some cs ∧
        List.Forall₂ (fun s c => Board.get b s = some c) l cs
  | [], _ => ⟨[], rfl, List.Forall₂.nil⟩
  | s :: rest, h => by
    obtain ⟨c, hc⟩ := h s (by simp)
    obtain ⟨cs, hcs, hfa⟩ := getWord_eq_some b rest (fun t ht => h t (by simp [ht]))
    exact ⟨c :: cs, by simp [Board.getWord, hc, hcs], List.Forall₂.cons hc hfa⟩

lemma get_eq_none_iff (b : Board) (s : Square) :
    Board.get b s = none ↔ b.board.length ≤ s.y * b.width + s.x := by
  simp [Board.get]

lemma get_isSome_of_inbounds (b : Board) (s : Square)
    (hlen : b.board.length = b.width * b.height)
    (hx : s.x < b.width) (hy : s.y < b.height) :
    ∃ c, Board.get b s = some c := by
  have hidx : s.y * b.width + s.x < b.board.length := by
    rw [hlen]
    calc s.y * b.width + s.x < s.y * b.width + b.width := by omega
    _ = (s.y + 1) * b.width := by ring
    _ ≤ b.height * b.width := Nat.mul_le_mul_right _ (by omega)
    _ = b.width * b.height := Nat.mul_comm _ _
  exact ⟨_, List.getElem?_eq_getElem hidx⟩

lemma word_eq_some_of_inbounds (b : Board) (r : Region)
    (hlen : b.board.length = b.width * b.height)
    (hb : Region.is_in_bounds r b = true) :
    ∃ cs, Region.word r b = some cs ∧
      List.Forall₂ (fun s c => Board.get b s = some c) (sortedSquares r) cs := by
  refine getWord_eq_some b (sortedSquares r) (fun s hs => ?_)
  have hsr : s ∈ r := (mem_sortedSquares r s).mp hs
  obtain ⟨hx, hy⟩ := (is_in_bounds_iff r b).mp hb s hsr
  exact get_isSome_of_inbounds b s hlen hx hy

/-- C10: `Board::new` with `width = 0` always panics (remainder by zero),
even on empty contents; with positive width it fails exactly when the length
is not a multiple of the width, and otherwise yields `height = len / width`. -/
theorem board_new_total_spec (w : Nat) (c : List Char) :
    Board.new 0 c = none ∧
    (0 < w →
      ((Board.new w c = none ↔ c.length % w ≠ 0) ∧
       (c.length % w = 0 →
         Board.new w c = some { width := w, height := c.length / w, board := c }))) := by
  refine ⟨by simp [Board.new], fun hw => ⟨?_, fun hm => ?_⟩⟩
  · by_cases hm : c.length % w = 0 <;>
      simp [Board.new, Nat.pos_iff_ne_zero.mp hw, hm]
  · simp [Board.new, Nat.pos_iff_ne_zero.mp hw, hm]

theorem board_new_total_spec_witness :
    Board.new 0 "ABCDEF".toList = none ∧
    (Board.new 3 "ABCDEF".toList = none ↔ "ABCDEF".toList.length % 3 ≠ 0) ∧
    Board.new 3 "ABCDEF".toList =
      some { width := 3, height := "ABCDEF".toList.length / 3, board := "ABCDEF".toList } :=
  ⟨(board_new_total_spec 3 "ABCDEF".toList).1,
   ((board_new_total_spec 3 "ABCDEF".toList).2 (by decide)).1,
   ((board_new_total_spec 3 "ABCDEF".toList).2 (by decide)).2 (by decide)⟩

/-- C3 counterexample: on the 3×3 board, the coordinate `(3,0)` lies outside
`[0,width)`, yet `Board::get` succeeds (the linear index `0*3+3 = 3` is in
range of the backing vector) and returns the first character of the next
row — so "fails iff out of bounds" is false in the only-if direction. -/
theorem board_get_out_of_bounds_succeeds :
    Board.new 3 "ABCDEFGHI".toList = some board3 ∧
    board3.width ≤ 3 ∧
    Board.get board3 ⟨3, 0⟩ = some 'D' := by
  refine ⟨by decide, by decide, by decide⟩

/-- C3 (amended): `Board::get` fails iff the linear index `y*width + x` falls
outside the backing vector; every in-bounds coordinate (on a board whose
contents have length `width*height`, as every constructed board does) reads
the character at linear index `y*width + x` — but an out-of-bounds coordinate
whose linear index is still in range succeeds instead of failing. -/
theorem board_get_linear_spec (b : Board) (s : Square)
    (hlen : b.board.length = b.width * b.height) :
    (Board.get b s = none ↔ b.board.length ≤ s.y * b.width + s.x) ∧
    (s.x < b.width → s.y < b.height →
      ∃ c, Board.get b s = some c ∧ b.board[s.y * b.width + s.x]? = some c) := by
  refine ⟨get_eq_none_iff b s, fun hx hy => ?_⟩
  obtain ⟨c, hc⟩ := get_isSome_of_inbounds b s hlen hx hy
  exact ⟨c, hc, hc⟩

theorem board_get_linear_spec_witness :
    (Board.get board3 ⟨2, 1⟩ = none ↔
      board3.board.length ≤ 1 * board3.width + 2) ∧
    ∃ c, Board.get board3 ⟨2, 1⟩ = some c ∧
      board3.board[1 * board3.width + 2]? = some c :=
  by
  have h := board_get_linear_spec board3 ⟨2, 1⟩ (by decide)
  exact ⟨h.1, h.2 (by decide) (by decide)⟩

/-- C9: `is_neighbour_of` is true exactly when one axis matches and the other
differs by one (so it is false on equal coordinates, diagonal neighbours and
any larger offset); it is a pure total function. -/
theorem is_neighbour_of_spec (a b : Square) :
    (a.is_neighbour_of b = true ↔
      ((a.x = b.x ∧ a.y ≠ b.y ∧ (a.y = b.y + 1 ∨ b.y = a.y + 1)) ∨
       (a.y = b.y ∧ a.x ≠ b.x ∧ (a.x = b.x + 1 ∨ b.x = a.x + 1)))) ∧
    Square.is_neighbour_of a a = false := by
  constructor
  · rw [is_neighbour_of_iff]
    omega
  · cases h : Square.is_neighbour_of a a
    · rfl
    · have := (is_neighbour_of_iff a a).mp h
      omega

lemma validPick_pickAdjacent : ValidPick pickAdjacent := by
  intro so_far remaining
  constructor
  · intro s hs
    rw [pickAdjacent] at hs
    have hmem := List.mem_of_find?_eq_some hs
    have hp := List.find?_some hs
    rw [mem_sortSquaresM] at hmem
    refine ⟨hmem, ?_⟩
    simpa using hp
  · intro hnone s hs t ht
    rw [pickAdjacent, List.find?_eq_none] at hnone
    have h := hnone s (by rw [mem_sortSquaresM]; exact hs)
    simp only [decide_eq_true_eq, not_exists] at h
    push_neg at h
    exact Bool.not_eq_true _ ▸ (h t ht)

lemma conn_mem {u : Finset Square} {a b : Square} (h : Conn u a b) (ha : a ∈ u) :
    b ∈ u := by
  induction h with
  | refl => exact ha
  | tail _ hstep _ => exact hstep.1

lemma conn_symm {u : Finset Square} {a b : Square} (ha : a ∈ u) (h : Conn u a b) :
    Conn u b a := by
  induction h with
  | refl => exact Relation.ReflTransGen.refl
  | tail hab hstep ih =>
    refine Relation.ReflTransGen.trans (Relation.ReflTransGen.single ?_) ih
    refine ⟨conn_mem hab ha, ?_⟩
    rw [is_neighbour_of_symm]
    exact hstep.2

lemma frontierLoop_iff (pick : Finset Square → Finset Square → Option Square)
    (hpick : ValidPick pick) (start : Square) (fuel : Nat) :
    ∀ so_far remaining : Finset Square,
      remaining.card ≤ fuel →
      Disjoint so_far remaining →
      start ∈ so_far →
      (∀ t ∈ so_far, Conn (so_far ∪ remaining) start t) →
      (frontierLoop pick fuel so_far remaining = true ↔
        ∀ b ∈ so_far ∪ remaining, Conn (so_far ∪ remaining) start b) := by
  induction fuel with
  | zero =>
    intro so_far remaining hcard _ _ hreach
    have hrem : remaining = ∅ := Finset.card_eq_zero.mp (Nat.le_zero.mp hcard)
    subst hrem
    simp only [Finset.union_empty] at hreach ⊢
    constructor
    · intro _ b hb
      exact hreach b hb
    · intro _
      simp [frontierLoop]
  | succ fuel ih =>
    intro so_far remaining hcard hdisj hstart hreach
    by_cases hrem : remaining = ∅
    · subst hrem
      simp only [Finset.union_empty] at hreach ⊢
      constructor
      · intro _ b hb
        exact hreach b hb
      · intro _
        simp [frontierLoop]
    · rcases hp : pick so_far remaining with _ | s
      · have hloop : frontierLoop pick (fuel + 1) so_far remaining = false := by
          simp [frontierLoop, hrem, hp]
        rw [hloop]
        constructor
        · intro h
          cases h
        · intro hall
          exfalso
          obtain ⟨b, hb⟩ := Finset.nonempty_iff_ne_empty.mpr hrem
          have hclosed : ∀ z, Conn (so_far ∪ remaining) start z → z ∈ so_far := by
            intro z hz
            induction hz with
            | refl => exact hstart
            | tail _ hstep ihz =>
              rcases Finset.mem_union.mp hstep.1 with hzs | hzr
              · exact hzs
              · exfalso
                have hfalse := (hpick so_far remaining).2 hp _ hzr _ ihz
                rw [is_neighbour_of_symm] at hfalse
                rw [hstep.2] at hfalse
                cases hfalse
          have hbin : b ∈ so_far := hclosed b (hall b (Finset.mem_union_right _ hb))
          exact (Finset.disjoint_left.mp hdisj hbin) hb
      · obtain ⟨hs_rem, t, ht, hnb⟩ := (hpick so_far remaining).1 s hp
        have hu : insert s so_far ∪ remaining.erase s = so_far ∪ remaining := by
          ext z
          by_cases hzs : z = s
          · subst hzs
            simp [hs_rem]
          · simp only [Finset.mem_union, Finset.mem_insert, Finset.mem_erase, hzs,
              false_or, true_and]
            tauto
        have hloop : frontierLoop pick (fuel + 1) so_far remaining =
            frontierLoop pick fuel (insert s so_far) (remaining.erase s) := by
          simp [frontierLoop, hrem, hp]
        rw [hloop]
        have hcard2 : (remaining.erase s).card ≤ fuel := by
          have := Finset.card_erase_of_mem hs_rem
          omega
        have hdisj2 : Disjoint (insert s so_far) (remaining.erase s) := by
          rw [Finset.disjoint_left]
          intro z hz1 hz2
          rcases Finset.mem_insert.mp hz1 with rfl | hz1b
          · exact (Finset.mem_erase.mp hz2).1 rfl
          · exact (Finset.disjoint_left.mp hdisj hz1b) (Finset.mem_of_mem_erase hz2)
        have hstart2 : start ∈ insert s so_far := Finset.mem_insert_of_mem hstart
        have hreach_s : Conn (so_far ∪ remaining) start s := by
          refine (hreach t ht).tail ⟨Finset.mem_union_right _ hs_rem, ?_⟩
          rw [is_neighbour_of_symm]
          exact hnb
        have hreach2 : ∀ z ∈ insert s so_far,
            Conn (insert s so_far ∪ remaining.erase s) start z := by
          rw [hu]
          intro z hz
          rcases Finset.mem_insert.mp hz with rfl | hz2
          · exact hreach_s
          · exact hreach z hz2
        have hres := ih (insert s so_far) (remaining.erase s) hcard2 hdisj2 hstart2 hreach2
        rw [hu] at hres
        exact hres

lemma is_contiguousFrom_iff (pick : Finset Square → Finset Square → Option Square)
    (hpick : ValidPick pick) (r : Region) (start : Square) (hstart : start ∈ r) :
    (is_contiguousFrom pick start r = true ↔ ∀ b ∈ r, Conn r start b) := by
  have hu : {start} ∪ r.erase start = r := by
    ext z
    simp only [Finset.mem_union, Finset.mem_singleton, Finset.mem_erase]
    constructor
    · rintro (rfl | ⟨_, hz⟩)
      · exact hstart
      · exact hz
    · intro hz
      by_cases hzs : z = start
      · exact Or.inl hzs
      · exact Or.inr ⟨hzs, hz⟩
  have h := frontierLoop_iff pick hpick start r.card {start} (r.erase start)
    (Finset.card_le_card (Finset.erase_subset _ _))
    (Finset.disjoint_singleton_left.mpr (Finset.not_mem_erase start r))
    (Finset.mem_singleton_self start)
    (by
      intro t ht
      rw [Finset.mem_singleton] at ht
      subst ht
      exact Relation.ReflTransGen.refl)
  rw [hu] at h
  exact h

lemma conn_start_iff_regionConnected (r : Region) (start : Square)
    (hstart : start ∈ r) :
    (∀ b ∈ r, Conn r start b) ↔ RegionConnected r := by
  constructor
  · intro h a ha b hb
    exact Relation.ReflTransGen.trans (conn_symm hstart (h a ha)) (h b hb)
  · intro h b hb
    exact h start hstart b hb

lemma head?_mem {α : Type} {l : List α} {a : α} (h : l.head? = some a) : a ∈ l := by
  cases l with
  | nil => cases h
  | cons x xs =>
    have hx := Option.some.inj h
    subst hx
    exact List.mem_cons_self x xs

lemma bool_eq_of_iff {a b : Bool} {P : Prop} (ha : a = true ↔ P)
    (hb : b = true ↔ P) : a = b := by
  cases a <;> cases b
  · rfl
  · exact ha.mpr (hb.mp rfl)
  · exact (hb.mpr (ha.mp rfl)).symm
  · rfl

lemma is_contiguous_canon (r : Region) (hr : r ≠ ∅) :
    ∃ start0, start0 ∈ r ∧
      Region.is_contiguous r = is_contiguousFrom pickAdjacent start0 r := by
  obtain ⟨start0, hhead⟩ : ∃ s, (sortedSquares r).head? = some s := by
    rcases hl : sortedSquares r with _ | ⟨x, xs⟩
    · exact absurd ((sortedSquares_eq_nil_iff r).mp hl) hr
    · exact ⟨x, by simp [hl]⟩
  have hstart0 : start0 ∈ r := (mem_sortedSquares r start0).mp (head?_mem hhead)
  refine ⟨start0, hstart0, ?_⟩
  unfold Region.is_contiguous
  rw [hhead]
  rfl

lemma is_contiguous_iff (r : Region) :
    Region.is_contiguous r = true ↔ (r = ∅ ∨ RegionConnected r) := by
  by_cases hr : r = ∅
  · subst hr
    rw [show Region.is_contiguous (∅ : Region) = true from rfl]
    simp
  · obtain ⟨s0, hs0, hc⟩ := is_contiguous_canon r hr
    rw [hc, is_contiguousFrom_iff pickAdjacent validPick_pickAdjacent r s0 hs0,
      conn_start_iff_regionConnected r s0 hs0]
    constructor
    · exact Or.inr
    · rintro (rfl | h)
      · exact absurd rfl hr
      · exact h

lemma is_contiguousFrom_eq (pick : Finset Square → Finset Square → Option Square)
    (hpick : ValidPick pick) {r : Region} {start : Square} (hstart : start ∈ r) :
    is_contiguousFrom pick start r = Region.is_contiguous r := by
  have hr : r ≠ ∅ := by
    intro h
    subst h
    simp at hstart
  obtain ⟨s0, hs0, hc⟩ := is_contiguous_canon r hr
  rw [hc]
  exact bool_eq_of_iff
    ((is_contiguousFrom_iff pick hpick r start hstart).trans
      (conn_start_iff_regionConnected r start hstart))
    ((is_contiguousFrom_iff pickAdjacent validPick_pickAdjacent r s0 hs0).trans
      (conn_start_iff_regionConnected r s0 hs0))

/-- C6: `is_contiguous` is true exactly when the region is empty or its
4-directional adjacency graph is connected; the result does not depend on
which member the frontier starts from nor on which eligible square is
absorbed next (any valid choice function gives the canonical answer). -/
theorem is_contiguous_connected_spec (r : Region) :
    (Region.is_contiguous r = true ↔ (r = ∅ ∨ RegionConnected r)) ∧
    (∀ pick, ValidPick pick → ∀ start ∈ r,
      is_contiguousFrom pick start r = Region.is_contiguous r) :=
  ⟨is_contiguous_iff r,
   fun pick hpick _ hstart => is_contiguousFrom_eq pick hpick hstart⟩

theorem is_contiguous_connected_spec_witness :
    is_contiguousFrom pickAdjacent ⟨0, 1⟩ {⟨0, 0⟩, ⟨0, 1⟩} =
      Region.is_contiguous {⟨0, 0⟩, ⟨0, 1⟩} ∧
    (Region.is_contiguous {⟨0, 0⟩, ⟨1, 1⟩} = true ↔
      (({⟨0, 0⟩, ⟨1, 1⟩} : Region) = ∅ ∨ RegionConnected {⟨0, 0⟩, ⟨1, 1⟩})) :=
  ⟨(is_contiguous_connected_spec {⟨0, 0⟩, ⟨0, 1⟩}).2 pickAdjacent
      validPick_pickAdjacent ⟨0, 1⟩ (by decide),
   (is_contiguous_connected_spec {⟨0, 0⟩, ⟨1, 1⟩}).1⟩

/-- C7: for an in-bounds region on a well-formed board, `word` succeeds and
spells the board characters at the region's squares in reading order (row
ascending, then column ascending), independently of how the set was built;
the empty region gives the empty word, and on the 3×3 board "ABC/DEF/GHI"
the regions `{(0,0),(0,1)}` and `{(0,0),(0,1),(1,0)}` spell "AD" and
"ABD". -/
theorem word_reading_order_spec (b : Board) (r : Region)
    (hlen : b.board.length = b.width * b.height)
    (hb : Region.is_in_bounds r b = true) :
    (∃ l cs, l.Nodup ∧ (∀ s, s ∈ l ↔ s ∈ r) ∧ l.Sorted Square.readLE ∧
      Region.word r b = some cs ∧
      List.Forall₂ (fun s c => Board.get b s = some c) l cs) ∧
    (∀ l1 l2 : List Square, l1.toFinset = l2.toFinset →
      Region.word l1.toFinset b = Region.word l2.toFinset b) ∧
    Region.word (∅ : Region) b = some [] ∧
    Region.word {⟨0, 0⟩, ⟨0, 1⟩} board3 = some "AD".toList ∧
    Region.word {⟨0, 0⟩, ⟨0, 1⟩, ⟨1, 0⟩} board3 = some "ABD".toList := by
  refine ⟨?_, fun l1 l2 h => by rw [h], rfl, by decide, by decide⟩
  obtain ⟨cs, hcs, hfa⟩ := word_eq_some_of_inbounds b r hlen hb
  exact ⟨sortedSquares r, cs, sortedSquares_nodup r, fun s => mem_sortedSquares r s,
    sortedSquares_sorted r, hcs, hfa⟩

theorem word_reading_order_spec_witness :
    ∃ l cs, l.Nodup ∧ (∀ s, s ∈ l ↔ s ∈ regionAD) ∧ l.Sorted Square.readLE ∧
      Region.word regionAD board3 = some cs ∧
      List.Forall₂ (fun s c => Board.get board3 s = some c) l cs :=
  (word_reading_order_spec board3 regionAD (by decide) (by decide)).1

lemma overlap_any_iff {D : Type} (g : Game D) (r : Region) :
    (g.regions.any (fun rd =>
      (sortSquaresM rd.1.val).any (fun square => decide (square ∈ r))) = true) ↔
    ∃ rd ∈ g.regions, ∃ s ∈ rd.1, s ∈ r := by
  simp [List.any_eq_true, mem_sortSquaresM]

lemma is_square_free_iff {D : Type} (g : Game D) (s : Square) :
    Game.is_square_free g s = true ↔ ∀ rd ∈ g.regions, s ∉ rd.1 := by
  simp [Game.is_square_free, List.any_eq_true, mem_sortSquaresM]

lemma check_region_iff {D : Type} (g : Game D) (r : Region) :
    (Game.check_region g r = .error .TooShort ↔ r.card < g.ruleset.min_length) ∧
    (Game.check_region g r = .error .TooLong ↔
      (¬ r.card < g.ruleset.min_length ∧ g.ruleset.max_length < r.card)) ∧
    (Game.check_region g r = .error .OutOfBounds ↔
      (¬ r.card < g.ruleset.min_length ∧ ¬ g.ruleset.max_length < r.card ∧
        ¬ ∀ s ∈ r, s.x < g.board.width ∧ s.y < g.board.height)) ∧
    (Game.check_region g r = .error .Overlapping ↔
      (¬ r.card < g.ruleset.min_length ∧ ¬ g.ruleset.max_length < r.card ∧
        (∀ s ∈ r, s.x < g.board.width ∧ s.y < g.board.height) ∧
        ∃ rd ∈ g.regions, ∃ s ∈ rd.1, s ∈ r)) ∧
    (Game.check_region g r = .error .NotContiguous ↔
      (¬ r.card < g.ruleset.min_length ∧ ¬ g.ruleset.max_length < r.card ∧
        (∀ s ∈ r, s.x < g.board.width ∧ s.y < g.board.height) ∧
        (¬ ∃ rd ∈ g.regions, ∃ s ∈ rd.1, s ∈ r) ∧
        ¬ (r = ∅ ∨ RegionConnected r))) ∧
    (Game.check_region g r = .error .NotInDictionary ↔
      (¬ r.card < g.ruleset.min_length ∧ ¬ g.ruleset.max_length < r.card ∧
        (∀ s ∈ r, s.x < g.board.width ∧ s.y < g.board.height) ∧
        (¬ ∃ rd ∈ g.regions, ∃ s ∈ rd.1, s ∈ r) ∧
        (r = ∅ ∨ RegionConnected r) ∧
        ∀ cs, Region.word r g.board = some cs → cs ∉ g.ruleset.dictionary)) ∧
    (Game.check_region g r = .ok r ↔
      (¬ r.card < g.ruleset.min_length ∧ ¬ g.ruleset.max_length < r.card ∧
        (∀ s ∈ r, s.x < g.board.width ∧ s.y < g.board.height) ∧
        (¬ ∃ rd ∈ g.regions, ∃ s ∈ rd.1, s ∈ r) ∧
        (r = ∅ ∨ RegionConnected r) ∧
        ∃ cs, Region.word r g.board = some cs ∧ cs ∈ g.ruleset.dictionary)) ∧
    (∀ res, Game.check_region g r = .ok res → res = r) := by
  by_cases h1 : r.card < g.ruleset.min_length
  · simp [Game.check_region, h1]
  by_cases h2 : g.ruleset.max_length < r.card
  · simp [Game.check_region, h1, h2]
  by_cases hb : Region.is_in_bounds r g.board = true
  case neg =>
    have hb3 : ¬ ∀ s ∈ r, s.x < g.board.width ∧ s.y < g.board.height :=
      fun hh => hb ((is_in_bounds_iff r g.board).mpr hh)
    have hbF : Region.is_in_bounds r g.board = false := by
      cases hv : Region.is_in_bounds r g.board
      · rfl
      · exact absurd hv hb
    simp [Game.check_region, h1, h2, hbF, hb3]
  case pos =>
  have hb3 : ∀ s ∈ r, s.x < g.board.width ∧ s.y < g.board.height :=
    (is_in_bounds_iff r g.board).mp hb
  by_cases ho : (g.regions.any (fun rd =>
      (sortSquaresM rd.1.val).any (fun square => decide (square ∈ r)))) = true
  · have hP4 : ∃ rd ∈ g.regions, ∃ s ∈ rd.1, s ∈ r := (overlap_any_iff g r).mp ho
    simp [Game.check_region, h1, h2, hb, ho, hb3, hP4]
    exact hb3
  have hoF : (g.regions.any (fun rd =>
      (sortSquaresM rd.1.val).any (fun square => decide (square ∈ r)))) = false := by
    cases hv : (g.regions.any (fun rd =>
        (sortSquaresM rd.1.val).any (fun square => decide (square ∈ r))))
    · rfl
    · exact absurd hv ho
  have hP4n : ¬ ∃ rd ∈ g.regions, ∃ s ∈ rd.1, s ∈ r :=
    fun hh => ho ((overlap_any_iff g r).mpr hh)
  by_cases hc : Region.is_contiguous r = true
  case neg =>
    have hcF : Region.is_contiguous r = false := by
      cases hv : Region.is_contiguous r
      · rfl
      · exact absurd hv hc
    have hP5 : ¬ (r = ∅ ∨ RegionConnected r) := fun hh => hc ((is_contiguous_iff r).mpr hh)
    simp [Game.check_region, h1, h2, hb, hoF, hcF, hb3, hP4n, hP5]
    exact hb3
  case pos =>
  have hP5t : r = ∅ ∨ RegionConnected r := (is_contiguous_iff r).mp hc
  rcases hw : Region.word r g.board with _ | cs
  · have hP6 : ∀ cs, Region.word r g.board = some cs → cs ∉ g.ruleset.dictionary := by
      intro cs h
      rw [hw] at h
      cases h
    have hP6n : ¬ ∃ cs, Region.word r g.board = some cs ∧ cs ∈ g.ruleset.dictionary := by
      rintro ⟨cs, hcs, _⟩
      rw [hw] at hcs
      cases hcs
    simp [Game.check_region, h1, h2, hb, hoF, hc, hw, hb3, hP4n, hP5t, hP6, hP6n]
    exact hb3
  · by_cases hd : cs ∈ g.ruleset.dictionary
    · have hP6n : ¬ ∀ cs2, Region.word r g.board = some cs2 →
          cs2 ∉ g.ruleset.dictionary := fun hh => (hh cs hw) hd
      have hPex : ∃ cs2, Region.word r g.board = some cs2 ∧
          cs2 ∈ g.ruleset.dictionary := ⟨cs, hw, hd⟩
      simp [Game.check_region, h1, h2, hb, hoF, hc, hw, hd, hb3, hP4n, hP5t, hP6n, hPex]
      exact hb3
    · have hP6 : ∀ cs2, Region.word r g.board = some cs2 →
          cs2 ∉ g.ruleset.dictionary := by
        intro cs2 h
        rw [hw] at h
        exact (Option.some.inj h) ▸ hd
      have hPexn : ¬ ∃ cs2, Region.word r g.board = some cs2 ∧
          cs2 ∈ g.ruleset.dictionary := by
        rintro ⟨cs2, hcs2, hmem⟩
        rw [hw] at hcs2
        exact ((Option.some.inj hcs2) ▸ hd) hmem
      simp [Game.check_region, h1, h2, hb, hoF, hc, hw, hd, hb3, hP4n, hP5t, hP6, hPexn]
      exact hb3

/-- C1: the six checks run in the fixed order size-too-small, size-too-large,
bounds, overlap, contiguity, dictionary; the first failing check alone
determines the (single) error tag, and the call succeeds exactly when all six
pass.  In particular the `TooShort` clause has no dictionary condition: a
region that is both too short and out of dictionary reports `TooShort`. -/
theorem check_region_order_spec {D : Type} (g : Game D) (r : Region) :
    (Game.check_region g r = .error .TooShort ↔ r.card < g.ruleset.min_length) ∧
    (Game.check_region g r = .error .TooLong ↔
      (¬ r.card < g.ruleset.min_length ∧ g.ruleset.max_length < r.card)) ∧
    (Game.check_region g r = .error .OutOfBounds ↔
      (¬ r.card < g.ruleset.min_length ∧ ¬ g.ruleset.max_length < r.card ∧
        ¬ ∀ s ∈ r, s.x < g.board.width ∧ s.y < g.board.height)) ∧
    (Game.check_region g r = .error .Overlapping ↔
      (¬ r.card < g.ruleset.min_length ∧ ¬ g.ruleset.max_length < r.card ∧
        (∀ s ∈ r, s.x < g.board.width ∧ s.y < g.board.height) ∧
        ∃ rd ∈ g.regions, ∃ s ∈ rd.1, s ∈ r)) ∧
    (Game.check_region g r = .error .NotContiguous ↔
      (¬ r.card < g.ruleset.min_length ∧ ¬ g.ruleset.max_length < r.card ∧
        (∀ s ∈ r, s.x < g.board.width ∧ s.y < g.board.height) ∧
        (¬ ∃ rd ∈ g.regions, ∃ s ∈ rd.1, s ∈ r) ∧
        ¬ (r = ∅ ∨ RegionConnected r))) ∧
    (Game.check_region g r = .error .NotInDictionary ↔
      (¬ r.card < g.ruleset.min_length ∧ ¬ g.ruleset.max_length < r.card ∧
        (∀ s ∈ r, s.x < g.board.width ∧ s.y < g.board.height) ∧
        (¬ ∃ rd ∈ g.regions, ∃ s ∈ rd.1, s ∈ r) ∧
        (r = ∅ ∨ RegionConnected r) ∧
        ∀ cs, Region.word r g.board = some cs → cs ∉ g.ruleset.dictionary)) ∧
    (Game.check_region g r = .ok r ↔
      (¬ r.card < g.ruleset.min_length ∧ ¬ g.ruleset.max_length < r.card ∧
        (∀ s ∈ r, s.x < g.board.width ∧ s.y < g.board.height) ∧
        (¬ ∃ rd ∈ g.regions, ∃ s ∈ rd.1, s ∈ r) ∧
        (r = ∅ ∨ RegionConnected r) ∧
        ∃ cs, Region.word r g.board = some cs ∧ cs ∈ g.ruleset.dictionary)) ∧
    (∀ res, Game.check_region g r = .ok res → res = r) :=
  check_region_iff g r

theorem check_region_order_spec_witness :
    (Game.check_region game1 ({⟨0, 0⟩} : Region) = .error .TooShort ↔
      Finset.card ({⟨0, 0⟩} : Region) < game1.ruleset.min_length) ∧
    ∀ res, Game.check_region game1 ({⟨0, 0⟩} : Region) = .ok res →
      res = ({⟨0, 0⟩} : Region) :=
  ⟨(check_region_order_spec game1 ({⟨0, 0⟩} : Region)).1,
   (check_region_order_spec game1 ({⟨0, 0⟩} : Region)).2.2.2.2.2.2.2⟩

/-- C2 counterexample: commit `{(0,0),(0,1)}` (a validated region spelling
"AD"); the candidate `{(0,0)}` shares the coordinate `(0,0)` with it, yet
`check_region` reports `TooShort` — the size check runs before the overlap
check — not `Overlapping`. -/
theorem add_region_overlap_cex :
    Game.check_region (Game.new (D := Nat) board3 ruleset1) regionAD = .ok regionAD ∧
    (⟨0, 0⟩ : Square) ∈ regionAD ∧
    (⟨0, 0⟩ : Square) ∈ ({⟨0, 0⟩} : Region) ∧
    Game.check_region game1 {⟨0, 0⟩} = .error .TooShort := by
  refine ⟨by decide, by decide, by decide, by decide⟩

/-- C2 (amended): after `add_region` commits `R`, a candidate sharing a
coordinate with `R` never validates — `check_region` always fails — and it
fails with `Overlapping` whenever the size and bounds checks, which run
earlier, pass; `is_square_free` is false on every coordinate of `R`. -/
theorem add_region_overlap_spec {D : Type} (g : Game D) (R c : Region) (d : D)
    (s : Square) (hsR : s ∈ R) (hsc : s ∈ c) :
    (∀ t ∈ R, Game.is_square_free (Game.add_region g R d) t = false) ∧
    (∀ res, Game.check_region (Game.add_region g R d) c ≠ .ok res) ∧
    (¬ c.card < g.ruleset.min_length → ¬ g.ruleset.max_length < c.card →
      (∀ t ∈ c, t.x < g.board.width ∧ t.y < g.board.height) →
      Game.check_region (Game.add_region g R d) c = .error .Overlapping) := by
  have hmem : (R, d) ∈ (Game.add_region g R d).regions := by
    simp [Game.add_region]
  have hP4 : ∃ rd ∈ (Game.add_region g R d).regions, ∃ t ∈ rd.1, t ∈ c :=
    ⟨(R, d), hmem, s, hsR, hsc⟩
  obtain ⟨i1, i2, i3, i4, i5, i6, i7, i8⟩ := check_region_iff (Game.add_region g R d) c
  refine ⟨?_, ?_, ?_⟩
  · intro t ht
    cases hv : Game.is_square_free (Game.add_region g R d) t
    · rfl
    · exact absurd ht (((is_square_free_iff _ t).mp hv) (R, d) hmem)
  · intro res hres
    have hrc : res = c := i8 res hres
    subst hrc
    obtain ⟨_, _, _, hnP4, _, _⟩ := i7.mp hres
    exact hnP4 hP4
  · intro hh1 hh2 hh3
    exact i4.mpr ⟨hh1, hh2, hh3, hP4⟩

theorem add_region_overlap_spec_witness :
    Game.is_square_free game1 ⟨0, 1⟩ = false ∧
    Game.check_region game1 {⟨0, 0⟩, ⟨1, 0⟩} = .error .Overlapping := by
  have h := add_region_overlap_spec (Game.new (D := Nat) board3 ruleset1) regionAD
    {⟨0, 0⟩, ⟨1, 0⟩} 0 ⟨0, 0⟩ (by decide) (by decide)
  exact ⟨h.1 ⟨0, 1⟩ (by decide), h.2.2 (by decide) (by decide) (by decide)⟩

lemma listPosition_none {α : Type} (p : α → Bool) (l : List α) :
    listPosition p l = none → ∀ x ∈ l, p x = false := by
  induction l with
  | nil =>
    intro _ x hx
    cases hx
  | cons a t ih =>
    intro h x hx
    simp only [listPosition] at h
    by_cases hpa : p a = true
    · rw [if_pos hpa] at h
      cases h
    · rw [if_neg hpa] at h
      have hpaF : p a = false := by
        cases hv : p a
        · rfl
        · exact absurd hv hpa
      rcases List.mem_cons.mp hx with rfl | hxt
      · exact hpaF
      · have ht : listPosition p t = none := by
          rcases hlt : listPosition p t with _ | i
          · rfl
          · rw [hlt] at h
            simp at h
        exact ih ht x hxt

lemma listPosition_some {α : Type} (p : α → Bool) (l : List α) (i : Nat) :
    listPosition p l = some i →
      i < l.length ∧ ∃ x, l[i]? = some x ∧ p x = true := by
  induction l generalizing i with
  | nil =>
    intro h
    cases h
  | cons a t ih =>
    intro h
    simp only [listPosition] at h
    by_cases hpa : p a = true
    · rw [if_pos hpa] at h
      have h0 : i = 0 := (Option.some.inj h).symm
      subst h0
      exact ⟨by simp, a, by simp, hpa⟩
    · rw [if_neg hpa] at h
      rcases hlt : listPosition p t with _ | j
      · rw [hlt] at h
        cases h
      · rw [hlt] at h
        have hj : i = j + 1 := by simpa using h.symm
        subst hj
        obtain ⟨hlen, x, hx, hpx⟩ := ih j hlt
        exact ⟨by simpa using hlen, x, by simpa using hx, hpx⟩

lemma listSwapRemove_zero_cons {α : Type} (a : α) (t : List α) :
    List.Perm (listSwapRemove (a :: t) 0) t := by
  cases t with
  | nil => simp [listSwapRemove]
  | cons b t2 =>
    have hne : b :: t2 ≠ [] := by simp
    have hlast : (a :: b :: t2).getLast? = some ((b :: t2).getLast hne) := by
      rw [List.getLast?_cons_cons]
      exact List.getLast?_eq_getLast (b :: t2) hne
    unfold listSwapRemove
    rw [hlast]
    show List.Perm ((b :: t2).getLast hne :: (b :: t2).dropLast) (b :: t2)
    have h1 : List.Perm ((b :: t2).getLast hne :: (b :: t2).dropLast)
        ((b :: t2).dropLast ++ [(b :: t2).getLast hne]) :=
      (List.perm_append_singleton _ _).symm
    have h2 : (b :: t2).dropLast ++ [(b :: t2).getLast hne] = b :: t2 :=
      List.dropLast_append_getLast hne
    exact h1.trans (by rw [h2])

lemma listSwapRemove_cons_cons {α : Type} (a b : α) (t : List α) (i : Nat) :
    listSwapRemove (a :: b :: t) (i + 1) = a :: listSwapRemove (b :: t) i := by
  unfold listSwapRemove
  rw [List.getLast?_cons_cons]
  rcases hl : (b :: t).getLast? with _ | last
  · simp at hl
  · cases i with
    | zero => rfl
    | succ j => rfl

lemma listSwapRemove_perm {α : Type} :
    ∀ (l : List α) (i : Nat), i < l.length →
      List.Perm (listSwapRemove l i) (l.eraseIdx i)
  | [], _, h => absurd h (by simp)
  | a :: t, 0, _ => listSwapRemove_zero_cons a t
  | a :: t, i + 1, h => by
    cases t with
    | nil => simp at h
    | cons b t2 =>
      rw [listSwapRemove_cons_cons]
      have hperm := listSwapRemove_perm (b :: t2) i (by simpa using h)
      exact hperm.cons a

lemma cons_eraseIdx_perm {α : Type} :
    ∀ (l : List α) (i : Nat) (x : α), l[i]? = some x →
      List.Perm (x :: l.eraseIdx i) l
  | [], i, x, h => by simp at h
  | a :: t, 0, x, h => by
    have hax : a = x := by simpa using h
    subst hax
    simp [List.eraseIdx]
  | a :: t, i + 1, x, h => by
    have ht : t[i]? = some x := by simpa using h
    have hperm := cons_eraseIdx_perm t i x ht
    have hswap : List.Perm (x :: a :: t.eraseIdx i) (a :: x :: t.eraseIdx i) :=
      List.Perm.swap a x _
    exact hswap.trans (hperm.cons a)

/-- C8: `remove_region` on a square held by no committed region returns
nothing and leaves the game literally unchanged; on an occupied square it
removes exactly one committed pair containing that square and returns it,
keeping every other entry (possibly reordered) and the board and ruleset. -/
theorem remove_region_spec {D : Type} (g : Game D) (square : Square) :
    ((∀ rd ∈ g.regions, square ∉ rd.1) →
      Game.remove_region g square = (none, g)) ∧
    ((∃ rd ∈ g.regions, square ∈ rd.1) →
      ∃ rd g2, Game.remove_region g square = (some rd, g2) ∧
        square ∈ rd.1 ∧ rd ∈ g.regions ∧
        g2.board = g.board ∧ g2.ruleset = g.ruleset ∧
        List.Perm (rd :: g2.regions) g.regions) := by
  constructor
  · intro hfree
    have hnone : listPosition (fun rd => decide (square ∈ rd.1)) g.regions = none := by
      rcases hlp : listPosition (fun rd => decide (square ∈ rd.1)) g.regions with _ | i
      · exact hlp
      · obtain ⟨hi, x, hx, hpx⟩ := listPosition_some _ _ i hlp
        have hxmem : x ∈ g.regions := List.getElem?_mem hx
        exact absurd (of_decide_eq_true hpx) (hfree x hxmem)
    unfold Game.remove_region
    rw [hnone]
  · intro hocc
    obtain ⟨rd0, hrd0, hsrd0⟩ := hocc
    have hsome : ∃ i, listPosition (fun rd => decide (square ∈ rd.1)) g.regions = some i := by
      rcases hlp : listPosition (fun rd => decide (square ∈ rd.1)) g.regions with _ | i
      · have := listPosition_none _ _ hlp rd0 hrd0
        rw [decide_eq_true hsrd0] at this
        cases this
      · exact ⟨i, hlp⟩
    obtain ⟨i, hlp⟩ := hsome
    obtain ⟨hi, x, hx, hpx⟩ := listPosition_some _ _ i hlp
    have hxmem : x ∈ g.regions := List.getElem?_mem hx
    refine ⟨x, { g with regions := listSwapRemove g.regions i }, ?_, ?_, hxmem, rfl, rfl, ?_⟩
    · unfold Game.remove_region
      rw [hlp]
      show (g.regions[i]?, ({ g with regions := listSwapRemove g.regions i } : Game D)) =
        (some x, { g with regions := listSwapRemove g.regions i })
      rw [hx]
    · exact of_decide_eq_true hpx
    · exact ((listSwapRemove_perm g.regions i hi).cons x).trans
        (cons_eraseIdx_perm g.regions i x hx)

theorem remove_region_spec_witness :
    Game.remove_region game1 ⟨2, 2⟩ = (none, game1) ∧
    ∃ rd g2, Game.remove_region game1 ⟨0, 0⟩ = (some rd, g2) ∧
      (⟨0, 0⟩ : Square) ∈ rd.1 ∧ rd ∈ game1.regions ∧
      g2.board = game1.board ∧ g2.ruleset = game1.ruleset ∧
      List.Perm (rd :: g2.regions) game1.regions :=
  ⟨(remove_region_spec game1 ⟨2, 2⟩).1 (by decide),
   (remove_region_spec game1 ⟨0, 0⟩).2 (by decide)⟩

lemma pairwise_swapRemove {α : Type} {R : α → α → Prop}
    (hsym : ∀ a b, R a b → R b a)
    {l : List α} (h : List.Pairwise R l) (i : Nat) (hi : i < l.length) :
    List.Pairwise R (listSwapRemove l i) :=
  ((listSwapRemove_perm l i hi).pairwise_iff (fun {x y} hxy => hsym x y hxy)).mpr
    (List.Pairwise.sublist (List.eraseIdx_sublist l i) h)

lemma mem_swapRemove {α : Type} {l : List α} {i : Nat} {x : α}
    (hi : i < l.length) (hx : x ∈ listSwapRemove l i) : x ∈ l :=
  (List.eraseIdx_sublist l i).subset ((listSwapRemove_perm l i hi).subset hx)

lemma remove_region_snd {D : Type} (g : Game D) (sq : Square) :
    (Game.remove_region g sq).2 = g ∨
    ∃ i, i < g.regions.length ∧
      (Game.remove_region g sq).2 =
        { g with regions := listSwapRemove g.regions i } := by
  unfold Game.remove_region
  rcases hlp : listPosition (fun rd => decide (sq ∈ rd.1)) g.regions with _ | i
  · rw [hlp]
    exact Or.inl rfl
  · rw [hlp]
    exact Or.inr ⟨i, (listPosition_some _ _ i hlp).1, rfl⟩

lemma check_ok_facts {D : Type} {g : Game D} {r : Region}
    (h : Game.check_region g r = .ok r) :
    (∀ s ∈ r, s.x < g.board.width ∧ s.y < g.board.height) ∧
    ∀ rd ∈ g.regions, Disjoint rd.1 r := by
  obtain ⟨_, _, _, _, _, _, i7, _⟩ := check_region_iff g r
  obtain ⟨_, _, hb3, hnov, _, _⟩ := i7.mp h
  refine ⟨hb3, ?_⟩
  intro rd hrd
  rw [Finset.disjoint_left]
  intro t ht htr
  exact hnov ⟨rd, hrd, t, ht, htr⟩

lemma reachable_inv {D : Type} {g : Game D} (h : Reachable g) :
    List.Pairwise (fun rd1 rd2 => Disjoint rd1.1 rd2.1) g.regions ∧
    ∀ rd ∈ g.regions, ∀ s ∈ rd.1, s.x < g.board.width ∧ s.y < g.board.height := by
  induction h with
  | new b rs =>
    constructor
    · exact List.Pairwise.nil
    · intro rd hrd
      cases hrd
  | @add g2 r d hre hok ih =>
    obtain ⟨hpw, hbd⟩ := ih
    obtain ⟨hb3, hdisj⟩ := check_ok_facts hok
    have hregs : (Game.add_region g2 r d).regions = g2.regions ++ [(r, d)] := rfl
    have hbrd : (Game.add_region g2 r d).board = g2.board := rfl
    rw [hregs, hbrd]
    constructor
    · rw [List.pairwise_append]
      refine ⟨hpw, List.pairwise_singleton _ _, ?_⟩
      intro a ha b hb
      rw [List.mem_singleton] at hb
      subst hb
      exact hdisj a ha
    · intro rd hrd s hs
      rcases List.mem_append.mp hrd with h1 | h2
      · exact hbd rd h1 s hs
      · rw [List.mem_singleton] at h2
        subst h2
        exact hb3 s hs
  | @remove g2 sq hre ih =>
    obtain ⟨hpw, hbd⟩ := ih
    rcases remove_region_snd g2 sq with he | ⟨i, hi, he⟩
    · rw [he]
      exact ⟨hpw, hbd⟩
    · rw [he]
      constructor
      · exact pairwise_swapRemove (fun a b hab => hab.symm) hpw i hi
      · intro rd hrd s hs
        exact hbd rd (mem_swapRemove hi hrd) s hs

/-- C4: in every game state reachable through `new`, validated `add_region`
and `remove_region`, the committed regions are pairwise disjoint — no two
committed regions share a coordinate. -/
theorem reachable_regions_disjoint {D : Type} (g : Game D) (h : Reachable g) :
    List.Pairwise (fun rd1 rd2 => Disjoint rd1.1 rd2.1) g.regions :=
  (reachable_inv h).1

theorem reachable_regions_disjoint_witness :
    List.Pairwise (fun rd1 rd2 => Disjoint rd1.1 rd2.1) game1.regions :=
  reachable_regions_disjoint game1
    (Reachable.add 0 (Reachable.new board3 ruleset1) (by decide))

lemma mem_foldl_union {D : Type} (l : List (Region × D)) (acc : Finset Square)
    (s : Square) :
    (s ∈ l.foldl (fun used rd => used ∪ rd.1) acc) ↔
      s ∈ acc ∨ ∃ rd ∈ l, s ∈ rd.1 := by
  induction l generalizing acc with
  | nil => simp
  | cons a t ih =>
    rw [List.foldl_cons, ih (acc ∪ a.1)]
    simp only [Finset.mem_union, List.mem_cons]
    constructor
    · rintro ((h | h) | ⟨rd, hrd, hs⟩)
      · exact Or.inl h
      · exact Or.inr ⟨a, Or.inl rfl, h⟩
      · exact Or.inr ⟨rd, Or.inr hrd, hs⟩
    · rintro (h | ⟨rd, rfl | hrd, hs⟩)
      · exact Or.inl (Or.inl h)
      · exact Or.inl (Or.inr hs)
      · exact Or.inr ⟨rd, hrd, hs⟩

lemma mem_usedSquares {D : Type} (g : Game D) (s : Square) :
    s ∈ usedSquares g ↔ ∃ rd ∈ g.regions, s ∈ rd.1 := by
  rw [usedSquares, mem_foldl_union]
  simp

lemma mem_allSquares (b : Board) (s : Square) :
    s ∈ allSquares b ↔ s.x < b.width ∧ s.y < b.height := by
  constructor
  · intro h
    simp only [allSquares, Finset.mem_image, Finset.mem_product,
      Finset.mem_range] at h
    obtain ⟨⟨px, py⟩, ⟨hx, hy⟩, rfl⟩ := h
    exact ⟨hx, hy⟩
  · intro ⟨hx, hy⟩
    simp only [allSquares, Finset.mem_image, Finset.mem_product,
      Finset.mem_range]
    exact ⟨(s.x, s.y), ⟨hx, hy⟩, rfl⟩

/-- C5: in a reachable state `is_complete` is true exactly when the union of
the committed regions' squares is the full board coordinate space, and then
every board cell lies in exactly one committed entry (the committed regions
partition the board). -/
theorem is_complete_partition_spec {D : Type} (g : Game D) (h : Reachable g) :
    (Game.is_complete g = true ↔
      ∀ s : Square, s ∈ usedSquares g ↔
        (s.x < g.board.width ∧ s.y < g.board.height)) ∧
    (Game.is_complete g = true →
      ∀ s : Square, s.x < g.board.width → s.y < g.board.height →
        ∃ i : Nat, ∃ rd : Region × D, g.regions[i]? = some rd ∧ s ∈ rd.1 ∧
          ∀ j : Nat, ∀ rd2 : Region × D,
            g.regions[j]? = some rd2 → s ∈ rd2.1 → j = i) := by
  obtain ⟨hpw, hbd⟩ := reachable_inv h
  have hsub : usedSquares g ⊆ allSquares g.board := by
    intro s hs
    obtain ⟨rd, hrd, hsrd⟩ := (mem_usedSquares g s).mp hs
    rw [mem_allSquares]
    exact hbd rd hrd s hsrd
  have hcompl : Game.is_complete g = true ↔ allSquares g.board ⊆ usedSquares g := by
    rw [Game.is_complete]
    simp [Finset.card_eq_zero, Finset.sdiff_eq_empty_iff_subset]
  constructor
  · rw [hcompl]
    constructor
    · intro hall s
      constructor
      · intro hs
        exact (mem_allSquares g.board s).mp (hsub hs)
      · intro hbnd
        exact hall ((mem_allSquares g.board s).mpr hbnd)
    · intro hiff s hs
      exact (hiff s).mpr ((mem_allSquares g.board s).mp hs)
  · intro hcmp s hx hy
    have hsused : s ∈ usedSquares g :=
      (hcompl.mp hcmp) ((mem_allSquares g.board s).mpr ⟨hx, hy⟩)
    obtain ⟨rd, hrd, hsrd⟩ := (mem_usedSquares g s).mp hsused
    obtain ⟨i, hig⟩ := List.getElem?_of_mem hrd
    refine ⟨i, rd, hig, hsrd, ?_⟩
    intro j rd2 hj hsrd2
    by_contra hne
    obtain ⟨hilt, higet⟩ := List.getElem?_eq_some_iff.mp hig
    obtain ⟨hjlt, hjget⟩ := List.getElem?_eq_some_iff.mp hj
    have hpair := List.pairwise_iff_getElem.mp hpw
    rcases Nat.lt_or_ge j i with hji | hij
    · have hd := hpair j i hjlt hilt hji
      rw [higet, hjget] at hd
      exact (Finset.disjoint_left.mp hd hsrd2) hsrd
    · have hij2 : i < j := Nat.lt_of_le_of_ne hij (fun hh => hne hh.symm)
      have hd := hpair i j hilt hjlt hij2
      rw [higet, hjget] at hd
      exact (Finset.disjoint_left.mp hd hsrd) hsrd2

theorem is_complete_partition_spec_witness :
    (Game.is_complete game2 = true ↔
      ∀ s : Square, s ∈ usedSquares game2 ↔
        (s.x < game2.board.width ∧ s.y < game2.board.height)) ∧
    ∃ i : Nat, ∃ rd : Region × Nat,
      game2.regions[i]? = some rd ∧ (⟨0, 1⟩ : Square) ∈ rd.1 ∧
      ∀ j : Nat, ∀ rd2 : Region × Nat,
        game2.regions[j]? = some rd2 → (⟨0, 1⟩ : Square) ∈ rd2.1 → j = i := by
  have hre : Reachable game2 :=
    Reachable.add 0 (Reachable.new boardAD ruleset1) (by decide)
  have h := is_complete_partition_spec game2 hre
  exact ⟨h.1, h.2 (by decide) ⟨0, 1⟩ (by decide) (by decide)⟩

example : Square.is_neighbour_of ⟨0, 0⟩ ⟨0, 1⟩ = true := by decide
example : Square.is_neighbour_of ⟨0, 0⟩ ⟨1, 1⟩ = false := by decide
example : Square.is_neighbour_of ⟨2, 2⟩ ⟨2, 2⟩ = false := by decide
example : Board.new 3 "ABCDEF".toList =
    some { width := 3, height := 2, board := "ABCDEF".toList } := by decide
example : Board.new 0 [] = none := by decide
example :
    Region.word {⟨0, 0⟩, ⟨0, 1⟩, ⟨1, 0⟩} ⟨3, 3, "ABCDEFGHI".toList⟩ =
      some "ABD".toList := by decide
example :
    Region.is_in_bounds {⟨3, 2⟩} ⟨3, 3, "ABCDEFGHI".toList⟩ = false := by decide
example : Region.is_contiguous ∅ = true := by decide
example : Region.is_contiguous {⟨0, 0⟩, ⟨1, 1⟩} = false := by decide
example : Region.is_contiguous {⟨0, 0⟩, ⟨0, 1⟩, ⟨1, 1⟩} = true := by decide
example :
    Region.is_contiguous {⟨0, 0⟩, ⟨0, 1⟩, ⟨0, 2⟩, ⟨1, 0⟩, ⟨2, 0⟩, ⟨2, 1⟩, ⟨2, 2⟩} =
      true := by decide
example : Region.is_contiguous {⟨0, 0⟩, ⟨0, 1⟩, ⟨2, 2⟩} = false := by decide
example :
    Game.check_region
      (Game.new (D := Nat) ⟨3, 3, "ABCDEFGHI".toList⟩
        ⟨2, 9, {"AD".toList}⟩)
      {⟨0, 0⟩, ⟨0, 1⟩} = .ok {⟨0, 0⟩, ⟨0, 1⟩} := by decide
example :
    Game.check_region
      (Game.new (D := Nat) ⟨3, 3, "ABCDEFGHI".toList⟩
        ⟨2, 9, {"AD".toList}⟩)
      {⟨0, 0⟩} = .error .TooShort := by decide
